import Mathlib

/-!
Verification of the storage-semantics core of `go-faster/fs` (`s3.go`):
a filesystem-backed S3-compatible server.

The embedding models the filesystem state as a flat finite map from
cleaned, rooted paths (lists of path segments, relative to "/") to nodes
(regular files with byte content, or directories). The path "/" (the empty
segment list) is an implicit, always-present, irremovable directory, as on
a real Unix system. States reachable through the modelled operations are
prefix-closed and duplicate-free, matching real filesystem trees.

`filepath.Join`/`filepath.Clean` are embedded as segment-list cleaning
(drop empty and "." segments, let ".." pop the previous segment, with ".."
at the top dropped as for rooted paths). `filepath.ToSlash` is the
identity (Unix). Byte contents are `List Nat`; permissions (the 0750 mode
bits), timestamps and ETag values are not modelled, since no claim under
consideration depends on them.
-/

namespace GoFs

/-- Byte payloads. -/
abbrev Bytes := List Nat

/-- A filesystem node: a regular file with its content, or a directory.
Directory children are not stored in the node; they are the map entries
whose path extends the directory's path. -/
inductive Node where
  | file (content : Bytes)
  | dir
deriving DecidableEq

/-- A cleaned rooted path: the list of path segments below "/". -/
abbrev Path := List String

/-- Filesystem state: a flat map from paths to nodes (first entry wins on
lookup; the operations below never create duplicate paths). -/
abbrev Fs := List (Path × Node)

/-! ### Embedding of the Go string/path helpers used by `s3.go` -/

/-- Split a string into its "/"-separated segments
(the segment view used to embed `filepath.Join`). -/
def splitPath (s : String) : List String :=
  (s.data.splitOn '/').map String.mk

/-- Join segments with "/" (the embedding of building a relative slash
path, as `filepath.Rel` + `filepath.ToSlash` produce in `ListObjects`). -/
def joinSegs (l : List String) : String :=
  String.mk ([('/' : Char)].intercalate (l.map String.data))

/-- `strings.HasPrefix key pfx` from `ListObjects`'s filter. -/
def goStartsWith (s pfx : String) : Bool :=
  decide (pfx.data <+: s.data)

/-- `strings.TrimPrefix(path, "/")` as used on `r.URL.Path`. -/
def trimLeadSlash (s : String) : String :=
  match s.data with
  | c :: rest => if c = '/' then String.mk rest else s
  | [] => s

/-- Core of `strings.SplitN(path, "/", 2)`: split a character list at the
first '/'; `none` second component when there is no '/'. -/
def splitCharsAt : List Char → List Char × Option (List Char)
  | [] => ([], none)
  | c :: rest =>
    if c = '/' then ([], some rest)
    else
      let p := splitCharsAt rest
      (c :: p.1, p.2)

/-- `strings.SplitN(path, "/", 2)` as the dispatcher uses it: the bucket
part and, when a '/' occurs, the remainder as the key part. -/
def splitBucketKey (s : String) : String × Option String :=
  let p := splitCharsAt s.data
  (String.mk p.1, p.2.map String.mk)

/-- `filepath.Clean` on a rooted path, stack style: returns the reversed
segment stack. Empty and "." segments are dropped; ".." pops the previous
segment (and is dropped at the top, as for rooted paths). -/
def cleanStack : List String → List String → List String
  | acc, [] => acc
  | acc, seg :: rest =>
    if seg = "" ∨ seg = "." then cleanStack acc rest
    else if seg = ".." then cleanStack acc.tail rest
    else cleanStack (seg :: acc) rest

/-- `filepath.Clean` of a rooted path given as segments. -/
def cleanSegs (l : List String) : Path :=
  (cleanStack [] l).reverse

/-- `filepath.Join(s.root, bucket)` (two-argument form, used by
`CreateBucket`, `DeleteBucket` and `ListObjects`). -/
def joinRB (root bucket : String) : Path :=
  cleanSegs (splitPath root ++ splitPath bucket)

/-- `filepath.Join(s.root, bucket, key)` (three-argument form, used by
`PutObject`, `GetObject` and `DeleteObject`). -/
def joinRBK (root bucket key : String) : Path :=
  cleanSegs (splitPath root ++ splitPath bucket ++ splitPath key)

/-- The storage root `s.root` as a cleaned path. -/
def rootPath (root : String) : Path :=
  cleanSegs (splitPath root)

/-! ### Embedding of the `os` filesystem primitives used by `s3.go` -/

/-- `os.Stat`-style lookup. The path "/" is an always-present directory. -/
def lookupFs (m : Fs) (p : Path) : Option Node :=
  if p = [] then some .dir
  else (m.find? fun e => decide (e.1 = p)).map Prod.snd

/-- Drop every entry at exactly path `p`. -/
def eraseP (m : Fs) (p : Path) : Fs :=
  m.filter fun e => decide (e.1 ≠ p)

/-- Set the node at path `p` (replacing any existing entry there). -/
def insertEntry (m : Fs) (p : Path) (n : Node) : Fs :=
  (p, n) :: eraseP m p

/-- Does anything live strictly below `p`? (`rmdir` emptiness check.) -/
def hasChild (m : Fs) (p : Path) : Bool :=
  m.any fun e => decide (p <+: e.1 ∧ e.1 ≠ p)

/-- `os.MkdirAll`, walking down from the already-validated directory
`pre`: each missing component is created as a directory; a regular file in
the way is an error (`ENOTDIR`), as in Go. -/
def mkdirAllFrom (m : Fs) (pre : Path) : List String → Option Fs
  | [] => some m
  | seg :: rest =>
    let q := pre ++ [seg]
    match lookupFs m q with
    | some .dir => mkdirAllFrom m q rest
    | some (.file _) => none
    | none => mkdirAllFrom (insertEntry m q .dir) q rest

/-- `os.MkdirAll(p, 0750)` (the mode bits are not modelled). -/
def mkdirAll (m : Fs) (p : Path) : Option Fs :=
  mkdirAllFrom m [] p

/-- `os.Create(p)` followed by writing `data` (`io.Copy`): fails when the
parent is missing or not a directory, or when `p` itself is a directory;
otherwise creates or truncates-and-overwrites the file. -/
def createFile (m : Fs) (p : Path) (data : Bytes) : Option Fs :=
  if p = [] then none
  else
    match lookupFs m p.dropLast with
    | some .dir =>
      match lookupFs m p with
      | some .dir => none
      | _ => some (insertEntry m p (.file data))
    | _ => none

/-- `os.Remove(p)`: fails on a missing path and on a non-empty directory;
removes a file or an empty directory. Removing "/" always fails. -/
def removeFs (m : Fs) (p : Path) : Option Fs :=
  if p = [] then none
  else
    match lookupFs m p with
    | none => none
    | some (.file _) => some (eraseP m p)
    | some .dir => if hasChild m p then none else some (eraseP m p)

/-! ### The storage backend (`S3Server` methods) -/

/-- Handle returned by `GetObject`: `os.Open` succeeds on both regular
files and directories; reading a directory handle fails only later. -/
inductive Handle where
  | fileData (content : Bytes)
  | dirHandle
deriving DecidableEq

/-- `info.Size()` of a directory is filesystem-dependent; no claim depends
on its value, so the model fixes an arbitrary constant. -/
def dirSize : Nat := 0

/-- `CreateBucket`: `MkdirAll(filepath.Join(s.root, bucket), 0750)`. -/
def createBucket (m : Fs) (root bucket : String) : Option Fs :=
  mkdirAll m (joinRB root bucket)

/-- `DeleteBucket`: `os.Remove(filepath.Join(s.root, bucket))`. -/
def deleteBucket (m : Fs) (root bucket : String) : Option Fs :=
  removeFs m (joinRB root bucket)

/-- `PutObject`: `MkdirAll(filepath.Dir(objectPath))`, then create the
file and copy the whole reader into it. The `size` argument is accepted
but never used, exactly as in the Go code. -/
def putObject (m : Fs) (root bucket key : String) (data : Bytes)
    (size : Int) : Option Fs :=
  let _ := size
  let p := joinRBK root bucket key
  match mkdirAll m p.dropLast with
  | none => none
  | some m1 => createFile m1 p data

/-- `GetObject`: `os.Stat` then `os.Open`; returns the handle and the stat
size. There is no regular-file check: a directory passes both calls. -/
def getObject (m : Fs) (root bucket key : String) :
    Option (Handle × Nat) :=
  match lookupFs m (joinRBK root bucket key) with
  | none => none
  | some (.file c) => some (.fileData c, c.length)
  | some .dir => some (.dirHandle, dirSize)

/-- `DeleteObject`: `os.Remove(filepath.Join(s.root, bucket, key))`. -/
def deleteObject (m : Fs) (root bucket key : String) : Option Fs :=
  removeFs m (joinRBK root bucket key)

/-- Total order on paths used to present walk results in the lexical
order `filepath.Walk` guarantees (sorted directory entries, DFS). Only
its existence matters to the claims, all of which are order-independent. -/
def pathLeB : Path → Path → Bool
  | [], _ => true
  | _ :: _, [] => false
  | a :: as, b :: bs => if a = b then pathLeB as bs else decide (a < b)

/-- Sort filesystem entries by path. -/
def sortByPath (es : Fs) : Fs :=
  List.insertionSort (fun e f => pathLeB e.1 f.1 = true) es

/-- The entries strictly below `bp` (the bucket subtree `filepath.Walk`
visits, on prefix-closed states). -/
def subtreeEntries (m : Fs) (bp : Path) : Fs :=
  m.filter fun e => decide (bp <+: e.1 ∧ e.1 ≠ bp)

/-- Body of the `filepath.Walk` callback in `ListObjects`: skip
directories, turn the path relative to the bucket into a slash key, apply
the plain string prefix filter, record key and size. -/
def walkCollect (bp : Path) (pfx : String) (es : Fs) :
    List (String × Nat) :=
  es.filterMap fun e =>
    match e.2 with
    | .dir => none
    | .file c =>
      let k := joinSegs (e.1.drop bp.length)
      if pfx = "" || goStartsWith k pfx then some (k, c.length) else none

/-- `ListObjects`: walk the bucket directory. A missing bucket path makes
`filepath.Walk` report the stat error (`ListObjects` fails); a bucket path
that is a regular file is visited once with relative path ".". -/
def listObjects (m : Fs) (root bucket pfx : String) :
    Option (List (String × Nat)) :=
  let bp := joinRB root bucket
  match lookupFs m bp with
  | none => none
  | some (.file c) =>
    some (if pfx = "" || goStartsWith "." pfx then [(".", c.length)] else [])
  | some .dir => some (walkCollect bp pfx (sortByPath (subtreeEntries m bp)))

/-- `ListBuckets`: `os.ReadDir(s.root)` (sorted by name), keeping only the
entries that are directories. Fails when the root is missing or a file. -/
def listBuckets (m : Fs) (root : String) : Option (List String) :=
  let rp := rootPath root
  match lookupFs m rp with
  | some .dir =>
    some (List.insertionSort (fun a b : String => a ≤ b)
      ((m.filter fun e =>
        decide (e.1.length = rp.length + 1 ∧ rp <+: e.1 ∧ e.2 = .dir)).map
        fun e => e.1.getLastD ""))
  | _ => none

/-! ### The HTTP dispatcher (`ServeHTTP`) -/

/-- HTTP methods the dispatcher distinguishes; `other` stands for every
method that is not GET, PUT or DELETE (the `default` switch case). -/
inductive Method where
  | GET
  | PUT
  | DELETE
  | other
deriving DecidableEq

/-- An inbound request, restricted to what `ServeHTTP` reads: the method,
`r.URL.Path`, the `prefix` query parameter (`""` when absent), the body
bytes and `r.ContentLength`. -/
structure Request where
  method : Method
  urlPath : String
  prefixParam : String
  body : Bytes
  contentLength : Int
deriving DecidableEq

/-- Response bodies, structurally: the two XML envelopes (their field
data; the XML serialization itself carries no claim), a streamed object
handle, a plain-text error line, or an empty body. -/
inductive RespBody where
  | xmlBuckets (names : List String)
  | xmlObjects (bucketName : String) (objs : List (String × Nat))
  | object (h : Handle)
  | text (msg : String)
  | empty
deriving DecidableEq

/-- An HTTP response: status code and body. Error texts abbreviate the
wrapped Go error strings; only their plain-text nature is claimed. -/
structure Response where
  status : Nat
  body : RespBody
deriving DecidableEq

/-- `ServeHTTP`: parse the path, route on (method, has-key), call the
backend, map failures to a status per call site. Returns the response and
the (possibly updated) filesystem state. -/
def serveHTTP (m : Fs) (root : String) (r : Request) : Response × Fs :=
  let path := trimLeadSlash r.urlPath
  let parts := splitBucketKey path
  if path = "" ∧ r.method = .GET then
    match listBuckets m root with
    | none => (⟨500, .text "failed to read buckets"⟩, m)
    | some names => (⟨200, .xmlBuckets names⟩, m)
  else
    let bucket := parts.1
    let key := parts.2.getD ""
    match r.method with
    | .PUT =>
      if key = "" then
        match createBucket m root bucket with
        | none => (⟨500, .text "failed to create bucket"⟩, m)
        | some m1 => (⟨200, .empty⟩, m1)
      else
        match putObject m root bucket key r.body r.contentLength with
        | none => (⟨500, .text "failed to put object"⟩, m)
        | some m1 => (⟨200, .empty⟩, m1)
    | .GET =>
      if key = "" then
        match listObjects m root bucket r.prefixParam with
        | none => (⟨500, .text "failed to list objects"⟩, m)
        | some objs => (⟨200, .xmlObjects bucket objs⟩, m)
      else
        match getObject m root bucket key with
        | none => (⟨404, .text "failed to get object"⟩, m)
        | some (h, _) => (⟨200, .object h⟩, m)
    | .DELETE =>
      if key = "" then
        match deleteBucket m root bucket with
        | none => (⟨500, .text "failed to delete bucket"⟩, m)
        | some m1 => (⟨204, .empty⟩, m1)
      else
        match deleteObject m root bucket key with
        | none => (⟨500, .text "failed to delete object"⟩, m)
        | some m1 => (⟨204, .empty⟩, m1)
    | .other => (⟨405, .text "Method not allowed"⟩, m)

/-- Well-formed path segment: usable verbatim as a single directory or
file name (`filepath.Clean` leaves it alone). -/
def WfSeg (s : String) : Prop :=
  s ≠ "" ∧ s ≠ "." ∧ s ≠ ".."

/-- Well-formed key: splits into at least one well-formed segment, so the
key maps unchanged onto a relative path below the bucket directory. -/
def WfKey (k : String) : Prop :=
  splitPath k ≠ [] ∧ ∀ s ∈ splitPath k, WfSeg s

instance : DecidablePred WfSeg := fun s => by
  unfold WfSeg; infer_instance

instance : DecidablePred WfKey := fun k => by
  unfold WfKey; infer_instance

/-- A sequence of `PutObject` calls against one bucket (each passing the
payload length as the unused declared size), stopping at the first
failure. -/
def putList (root bucket : String) : Fs → List (String × Bytes) → Option Fs
  | m, [] => some m
  | m, (k, d) :: rest =>
    match putObject m root bucket k d (d.length : Int) with
    | none => none
    | some m1 => putList root bucket m1 rest

/-! ### Helper lemmas about the filesystem primitives -/

theorem lookupFs_insert_self (m : Fs) (p : Path) (n : Node) (hp : p ≠ []) :
    lookupFs (insertEntry m p n) p = some n := by
  simp [lookupFs, insertEntry, hp, List.find?_cons]

theorem lookupFs_insert_ne (m : Fs) (p q : Path) (n : Node) (hq : q ≠ p) :
    lookupFs (insertEntry m p n) q = lookupFs m q := by
  by_cases h0 : q = []
  · simp [lookupFs, h0]
  · have hp : ¬(p = q) := fun h => hq h.symm
    have hfun : (fun a : Path × Node => !decide (a.1 = p) && decide (a.1 = q)) =
        fun e : Path × Node => decide (e.1 = q) := by
      funext a
      by_cases h : a.1 = q
      · simp [h, hq]
      · simp [h]
    simp [lookupFs, insertEntry, eraseP, h0, List.find?_cons, hp, hfun]

theorem mem_insertEntry {m : Fs} {p : Path} {n : Node} {e : Path × Node} :
    e ∈ insertEntry m p n ↔ e = (p, n) ∨ (e ∈ m ∧ e.1 ≠ p) := by
  simp [insertEntry, eraseP, List.mem_filter, or_comm]

theorem eraseP_of_lookup_none {m : Fs} {p : Path} (hp : p ≠ [])
    (h : lookupFs m p = none) : eraseP m p = m := by
  rw [eraseP, List.filter_eq_self]
  intro e he
  simp only [lookupFs, hp, if_false, Option.map_eq_none', List.find?_eq_none]
    at h
  simpa using h e he

theorem lookupFs_eraseP_self (m : Fs) (p : Path) (hp : p ≠ []) :
    lookupFs (eraseP m p) p = none := by
  simp only [lookupFs, hp, if_false, Option.map_eq_none', List.find?_eq_none,
    eraseP]
  intro e he
  simp only [List.mem_filter, decide_eq_true_eq] at he
  simp [he.2]

theorem not_mem_of_lookup_none {m : Fs} {p : Path} {n : Node} (hp : p ≠ [])
    (h : lookupFs m p = none) : (p, n) ∉ m := by
  intro hmem
  simp only [lookupFs, hp, if_false, Option.map_eq_none', List.find?_eq_none]
    at h
  exact h _ hmem (by simp)

/-! ### Path cleaning and splitting lemmas -/

theorem cleanStack_append (acc l₁ l₂ : List String) :
    cleanStack acc (l₁ ++ l₂) = cleanStack (cleanStack acc l₁) l₂ := by
  induction l₁ generalizing acc with
  | nil => rfl
  | cons s rest ih =>
    by_cases h1 : s = "" ∨ s = "."
    · simp only [List.cons_append, cleanStack, if_pos h1]
      exact ih _
    · by_cases h2 : s = ".."
      · simp only [List.cons_append, cleanStack, if_neg h1, if_pos h2]
        exact ih _
      · simp only [List.cons_append, cleanStack, if_neg h1, if_neg h2]
        exact ih _

theorem cleanStack_wf (acc : List String) (l : List String)
    (h : ∀ s ∈ l, WfSeg s) : cleanStack acc l = l.reverse ++ acc := by
  induction l generalizing acc with
  | nil => rfl
  | cons s rest ih =>
    obtain ⟨h1, h2, h3⟩ := h s (by simp)
    rw [cleanStack, if_neg (by simp [h1, h2]), if_neg h3,
      ih _ fun t ht => h t (by simp [ht])]
    simp

theorem joinSegs_splitPath (s : String) : joinSegs (splitPath s) = s := by
  simp only [joinSegs, splitPath, List.map_map]
  have hid : (String.data ∘ String.mk) = id := funext fun l => rfl
  rw [hid, List.map_id, List.intercalate_splitOn]

theorem joinRBK_eq (root b k : String) (hk : WfKey k) :
    joinRBK root b k = joinRB root b ++ splitPath k := by
  obtain ⟨-, hwf⟩ := hk
  simp only [joinRBK, joinRB, cleanSegs]
  rw [cleanStack_append, cleanStack_wf _ _ hwf]
  simp

theorem joinRB_empty_bucket (root : String) : joinRB root "" = rootPath root := by
  have hsp : splitPath "" = [""] := rfl
  simp only [joinRB, rootPath, cleanSegs, hsp]
  rw [cleanStack_append]
  simp [cleanStack]

/-! ### `MkdirAll` lemmas -/

theorem mkdirAllFrom_lookup_dir (q : Path) (l : List String) (m' : Fs) :
    ∀ (m : Fs) (pre : Path), mkdirAllFrom m pre l = some m' →
      lookupFs m q = some .dir → lookupFs m' q = some .dir := by
  induction l with
  | nil =>
    intro m pre h hq
    rw [mkdirAllFrom] at h
    cases h
    exact hq
  | cons seg rest ih =>
    intro m pre h hq
    rw [mkdirAllFrom] at h
    cases hl : lookupFs m (pre ++ [seg]) with
    | none =>
      rw [hl] at h
      refine ih _ _ h ?_
      rcases eq_or_ne q (pre ++ [seg]) with rfl | hne
      · rw [hl] at hq; cases hq
      · rw [lookupFs_insert_ne _ _ _ _ hne]; exact hq
    | some n =>
      cases n with
      | dir => rw [hl] at h; exact ih _ _ h hq
      | file c => rw [hl] at h; cases h

theorem mkdirAllFrom_file_mem (p : Path) (c : Bytes) (l : List String)
    (m' : Fs) :
    ∀ (m : Fs) (pre : Path), mkdirAllFrom m pre l = some m' →
      ((p, Node.file c) ∈ m' ↔ (p, Node.file c) ∈ m) := by
  induction l with
  | nil =>
    intro m pre h
    rw [mkdirAllFrom] at h
    cases h
    rfl
  | cons seg rest ih =>
    intro m pre h
    rw [mkdirAllFrom] at h
    cases hl : lookupFs m (pre ++ [seg]) with
    | none =>
      rw [hl] at h
      rw [ih _ _ h, mem_insertEntry]
      constructor
      · rintro (hcontra | ⟨hm, -⟩)
        · cases hcontra
        · exact hm
      · intro hm
        refine Or.inr ⟨hm, fun hp => ?_⟩
        have hp' : p = pre ++ [seg] := hp
        exact not_mem_of_lookup_none (by simp) hl (hp' ▸ hm)
    | some n =>
      cases n with
      | dir => rw [hl] at h; exact ih _ _ h
      | file c' => rw [hl] at h; cases h

theorem mkdirAllFrom_result_dir (l : List String) (m' : Fs) :
    ∀ (m : Fs) (pre : Path), mkdirAllFrom m pre l = some m' →
      (pre = [] ∨ lookupFs m pre = some .dir) →
      lookupFs m' (pre ++ l) = some .dir := by
  induction l with
  | nil =>
    intro m pre h hpre
    rw [mkdirAllFrom] at h
    cases h
    rcases hpre with rfl | hd
    · rfl
    · simpa using hd
  | cons seg rest ih =>
    intro m pre h hpre
    rw [mkdirAllFrom] at h
    have harr : pre ++ seg :: rest = (pre ++ [seg]) ++ rest := by simp
    rw [harr]
    cases hl : lookupFs m (pre ++ [seg]) with
    | none =>
      rw [hl] at h
      exact ih _ _ h (Or.inr (lookupFs_insert_self _ _ _ (by simp)))
    | some n =>
      cases n with
      | dir => rw [hl] at h; exact ih _ _ h (Or.inr hl)
      | file c => rw [hl] at h; cases h

theorem mkdirAllFrom_idem (l : List String) (m' : Fs) :
    ∀ (m : Fs) (pre : Path), mkdirAllFrom m pre l = some m' →
      mkdirAllFrom m' pre l = some m' := by
  induction l with
  | nil =>
    intro m pre h
    rw [mkdirAllFrom] at h
    cases h
    rfl
  | cons seg rest ih =>
    intro m pre h
    rw [mkdirAllFrom] at h
    cases hl : lookupFs m (pre ++ [seg]) with
    | none =>
      rw [hl] at h
      have hd : lookupFs m' (pre ++ [seg]) = some .dir :=
        mkdirAllFrom_lookup_dir _ _ _ _ _ h
          (lookupFs_insert_self _ _ _ (by simp))
      rw [mkdirAllFrom, hd]
      exact ih _ _ h
    | some n =>
      cases n with
      | dir =>
        rw [hl] at h
        have hd : lookupFs m' (pre ++ [seg]) = some .dir :=
          mkdirAllFrom_lookup_dir _ _ _ _ _ h hl
        rw [mkdirAllFrom, hd]
        exact ih _ _ h
      | file c => rw [hl] at h; cases h

theorem mkdirAllFrom_noop (l : List String) :
    ∀ (m : Fs) (pre : Path),
      (∀ q : Path, q ≠ [] → q <+: pre ++ l → lookupFs m q = some .dir) →
      mkdirAllFrom m pre l = some m := by
  induction l with
  | nil => intro m pre _; rfl
  | cons seg rest ih =>
    intro m pre h
    have hd : lookupFs m (pre ++ [seg]) = some .dir :=
      h (pre ++ [seg]) (by simp) ⟨rest, by simp⟩
    rw [mkdirAllFrom, hd]
    refine ih _ _ fun q hq hpre => h q hq ?_
    simpa using hpre

/-! ### `os.Create` and `PutObject` lemmas -/

theorem createFile_eq {m m' : Fs} {p : Path} {data : Bytes}
    (h : createFile m p data = some m') :
    p ≠ [] ∧ m' = insertEntry m p (.file data) := by
  by_cases hp : p = []
  · rw [createFile, if_pos hp] at h; cases h
  · rw [createFile, if_neg hp] at h
    refine ⟨hp, ?_⟩
    cases hpar : lookupFs m p.dropLast with
    | none => rw [hpar] at h; cases h
    | some n =>
      cases n with
      | file c => rw [hpar] at h; cases h
      | dir =>
        rw [hpar] at h
        cases hself : lookupFs m p with
        | none => rw [hself] at h; cases h; rfl
        | some n' =>
          cases n' with
          | dir => rw [hself] at h; cases h
          | file c => rw [hself] at h; cases h; rfl

theorem putObject_eq {m m' : Fs} {root b k : String} {data : Bytes}
    {sz : Int} (h : putObject m root b k data sz = some m') :
    ∃ m1, mkdirAll m (joinRBK root b k).dropLast = some m1 ∧
      joinRBK root b k ≠ [] ∧
      m' = insertEntry m1 (joinRBK root b k) (.file data) := by
  simp only [putObject] at h
  cases hmk : mkdirAll m (joinRBK root b k).dropLast with
  | none => rw [hmk] at h; cases h
  | some m1 =>
    rw [hmk] at h
    obtain ⟨hp, hm⟩ := createFile_eq h
    exact ⟨m1, rfl, hp, hm⟩

theorem putObject_lookup {m m' : Fs} {root b k : String} {data : Bytes}
    {sz : Int} (h : putObject m root b k data sz = some m') :
    lookupFs m' (joinRBK root b k) = some (.file data) := by
  obtain ⟨m1, -, hp, rfl⟩ := putObject_eq h
  exact lookupFs_insert_self _ _ _ hp

/-! ### `ListObjects` membership characterization -/

theorem pfxFilter_iff (pfx k : String) :
    (pfx = "" ∨ goStartsWith k pfx = true) ↔
      (pfx = "" ∨ pfx.data <+: k.data) := by
  simp [goStartsWith]

theorem walkCollect_cons_dir (bp : Path) (pfx : String) (p : Path)
    (rest : Fs) :
    walkCollect bp pfx ((p, Node.dir) :: rest) = walkCollect bp pfx rest := by
  simp [walkCollect, List.filterMap_cons]

theorem walkCollect_cons_file (bp : Path) (pfx : String) (p : Path)
    (c : Bytes) (rest : Fs) :
    walkCollect bp pfx ((p, Node.file c) :: rest) =
      (if pfx = "" ∨ goStartsWith (joinSegs (p.drop bp.length)) pfx = true
        then [(joinSegs (p.drop bp.length), c.length)] else []) ++
        walkCollect bp pfx rest := by
  by_cases hc : pfx = "" ∨ goStartsWith (joinSegs (p.drop bp.length)) pfx = true
  · simp [walkCollect, List.filterMap_cons, if_pos hc]
  · simp [walkCollect, List.filterMap_cons, if_neg hc]

theorem mem_walkCollect_keys (bp : Path) (pfx k : String) :
    ∀ es : Fs, k ∈ (walkCollect bp pfx es).map Prod.fst ↔
      ∃ p c, (p, Node.file c) ∈ es ∧ k = joinSegs (p.drop bp.length) ∧
        (pfx = "" ∨ goStartsWith k pfx = true) := by
  intro es
  induction es with
  | nil => simp [walkCollect]
  | cons e rest ih =>
    obtain ⟨p, n⟩ := e
    cases n with
    | dir =>
      rw [walkCollect_cons_dir, ih]
      constructor
      · rintro ⟨p', c', hmem, hrest⟩
        exact ⟨p', c', List.mem_cons_of_mem _ hmem, hrest⟩
      · rintro ⟨p', c', hmem, hrest⟩
        rcases List.mem_cons.mp hmem with hhd | htl
        · cases hhd
        · exact ⟨p', c', htl, hrest⟩
    | file c =>
      rw [walkCollect_cons_file]
      by_cases hc : pfx = "" ∨
          goStartsWith (joinSegs (p.drop bp.length)) pfx = true
      · rw [if_pos hc]
        simp only [List.map_append, List.mem_append, List.map_cons,
          List.map_nil, List.mem_singleton, ih]
        constructor
        · rintro (rfl | ⟨p', c', hmem, hrest⟩)
          · exact ⟨p, c, List.mem_cons_self _ _, rfl, hc⟩
          · exact ⟨p', c', List.mem_cons_of_mem _ hmem, hrest⟩
        · rintro ⟨p', c', hmem, hk, hp⟩
          rcases List.mem_cons.mp hmem with hhd | htl
          · left
            obtain ⟨h1, h2⟩ := Prod.mk.injEq .. ▸ hhd
            cases h1
            exact hk
          · exact Or.inr ⟨p', c', htl, hk, hp⟩
      · rw [if_neg hc]
        simp only [List.nil_append, ih]
        constructor
        · rintro ⟨p', c', hmem, hrest⟩
          exact ⟨p', c', List.mem_cons_of_mem _ hmem, hrest⟩
        · rintro ⟨p', c', hmem, hk, hp⟩
          rcases List.mem_cons.mp hmem with hhd | htl
          · exfalso
            obtain ⟨h1, h2⟩ := Prod.mk.injEq .. ▸ hhd
            cases h1
            rw [← hk] at hc
            exact hc hp
          · exact ⟨p', c', htl, hk, hp⟩

theorem mem_sortedSubtree {m : Fs} {bp : Path} {e : Path × Node} :
    e ∈ sortByPath (subtreeEntries m bp) ↔
      e ∈ m ∧ bp <+: e.1 ∧ e.1 ≠ bp := by
  rw [sortByPath, List.mem_insertionSort]
  simp [subtreeEntries, List.mem_filter]

/-- Characterization of the keys `ListObjects` returns on a bucket that
exists as a directory: exactly the slash-joined relative paths of the file
entries strictly below the bucket path that pass the prefix filter. -/
theorem listObjects_keys_char (m : Fs) (root b pfx : String)
    (hb : lookupFs m (joinRB root b) = some .dir) :
    listObjects m root b pfx =
      some (walkCollect (joinRB root b) pfx
        (sortByPath (subtreeEntries m (joinRB root b)))) ∧
    ∀ k : String,
      k ∈ (walkCollect (joinRB root b) pfx
          (sortByPath (subtreeEntries m (joinRB root b)))).map Prod.fst ↔
        ((∃ q c, (joinRB root b ++ q, Node.file c) ∈ m ∧ q ≠ [] ∧
            joinSegs q = k) ∧ (pfx = "" ∨ pfx.data <+: k.data)) := by
  constructor
  · simp [listObjects, hb]
  · intro k
    rw [mem_walkCollect_keys]
    constructor
    · rintro ⟨p, c, hmem, hk, hf⟩
      rw [mem_sortedSubtree] at hmem
      obtain ⟨hm, ⟨q, rfl⟩, hne⟩ := hmem
      refine ⟨⟨q, c, hm, fun hq0 => hne (by simp [hq0]), ?_⟩,
        (pfxFilter_iff _ _).mp hf⟩
      rw [hk]
      congr 1
      exact (List.drop_left _ _).symm
    · rintro ⟨⟨q, c, hm, hq, hjoin⟩, hp⟩
      refine ⟨joinRB root b ++ q, c, ?_, ?_, (pfxFilter_iff _ _).mpr hp⟩
      · rw [mem_sortedSubtree]
        refine ⟨hm, ⟨q, rfl⟩, fun h => hq ?_⟩
        have h' : joinRB root b ++ q = joinRB root b ++ [] := by simpa using h
        exact List.append_cancel_left h'
      · rw [List.drop_left, hjoin]

/-! ### Claim theorems -/

/-- C1: for every bucket, key and byte payload P, when
`PutObject(bucket, key, P)` succeeds, a subsequent
`GetObject(bucket, key)` succeeds and returns exactly the bytes P, with
the returned size equal to the length of P. -/
theorem C1_put_get_roundtrip (m m' : Fs) (root bucket key : String)
    (P : Bytes) (sz : Int)
    (h : putObject m root bucket key P sz = some m') :
    getObject m' root bucket key = some (.fileData P, P.length) := by
  rw [getObject, putObject_lookup h]

theorem C1_put_get_roundtrip_witness :
    getObject [(["data", "b", "dir", "hello.txt"], Node.file [72, 105]),
        (["data", "b", "dir"], Node.dir), (["data"], Node.dir),
        (["data", "b"], Node.dir)] "data" "b" "dir/hello.txt" =
      some (.fileData [72, 105], 2) :=
  C1_put_get_roundtrip [(["data"], Node.dir), (["data", "b"], Node.dir)]
    _ "data" "b" "dir/hello.txt" [72, 105] 2 (by decide)

/-- C4 counterexample: on a state where the mapped path exists but is a
directory (not a regular file), `GetObject` does not fail — `os.Stat` and
`os.Open` both succeed on a directory, and the code never checks the file
mode — contradicting the claim that it fails whenever the path is not a
regular file. -/
theorem C4_counterexample :
    lookupFs [(["data"], Node.dir), (["data", "b"], Node.dir),
        (["data", "b", "sub"], Node.dir)] (joinRBK "data" "b" "sub") =
      some Node.dir ∧
    getObject [(["data"], Node.dir), (["data", "b"], Node.dir),
        (["data", "b", "sub"], Node.dir)] "data" "b" "sub" ≠ none := by
  decide

/-- C4 amended: `GetObject(bucket, key)` fails exactly when the mapped
filesystem path does not exist; when the path exists it succeeds and
returns the opened handle together with the stat size — for a regular
file, a readable stream of its bytes and its byte length, and for a
directory, a directory handle (whose reads fail only later) with the stat
size. -/
theorem C4_get_object_amended (m : Fs) (root bucket key : String) :
    (getObject m root bucket key = none ↔
      lookupFs m (joinRBK root bucket key) = none) ∧
    (∀ c, lookupFs m (joinRBK root bucket key) = some (.file c) →
      getObject m root bucket key = some (.fileData c, c.length)) ∧
    (lookupFs m (joinRBK root bucket key) = some .dir →
      getObject m root bucket key = some (.dirHandle, dirSize)) := by
  refine ⟨?_, fun c hc => by rw [getObject, hc], fun hd => by rw [getObject, hd]⟩
  cases h : lookupFs m (joinRBK root bucket key) with
  | none => simp [getObject, h]
  | some n => cases n <;> simp [getObject, h]

theorem C4_get_object_amended_witness :
    getObject [(["data"], Node.dir)] "data" "b" "k" = none :=
  (C4_get_object_amended [(["data"], Node.dir)] "data" "b" "k").1.mpr
    (by decide)

/-- C6: `CreateBucket` is idempotent — when `CreateBucket(b)` succeeds
producing state `m'`, running it again on `m'` succeeds and leaves the
state exactly `m'` (so in particular creating an already-existing bucket
succeeds silently), and the bucket directory exists in `m'`. -/
theorem C6_create_bucket_idem (m m' : Fs) (root bucket : String)
    (h : createBucket m root bucket = some m') :
    createBucket m' root bucket = some m' ∧
    lookupFs m' (joinRB root bucket) = some .dir := by
  rw [createBucket, mkdirAll] at h ⊢
  refine ⟨mkdirAllFrom_idem _ _ _ _ h, ?_⟩
  simpa using mkdirAllFrom_result_dir _ _ _ _ h (Or.inl rfl)

theorem C6_create_bucket_idem_witness :
    createBucket [(["data", "b"], Node.dir), (["data"], Node.dir)]
        "data" "b" =
      some [(["data", "b"], Node.dir), (["data"], Node.dir)] ∧
    lookupFs [(["data", "b"], Node.dir), (["data"], Node.dir)]
        (joinRB "data" "b") = some .dir :=
  C6_create_bucket_idem [(["data"], Node.dir)] _ "data" "b" (by decide)

/-- C7: `DeleteBucket(b)` fails both when the bucket is missing and when
the bucket directory still contains any entry; in the failure case the
dispatcher answers 500 and the filesystem state is returned unchanged
(the bucket and its contents are left intact). -/
theorem C7_delete_bucket_fails (m : Fs) (root bucket : String)
    (h : lookupFs m (joinRB root bucket) = none ∨
      (lookupFs m (joinRB root bucket) = some .dir ∧
        hasChild m (joinRB root bucket) = true)) :
    deleteBucket m root bucket = none ∧
    ∀ r : Request, r.method = .DELETE →
      splitBucketKey (trimLeadSlash r.urlPath) = (bucket, none) →
      serveHTTP m root r = (⟨500, .text "failed to delete bucket"⟩, m) := by
  have hdel : deleteBucket m root bucket = none := by
    rw [deleteBucket]
    by_cases hp : joinRB root bucket = []
    · rw [removeFs, if_pos hp]
    · rcases h with hnone | ⟨hdir, hchild⟩
      · rw [removeFs, if_neg hp, hnone]
      · rw [removeFs, if_neg hp, hdir, if_pos hchild]
  refine ⟨hdel, fun r hm hparse => ?_⟩
  have hne : ¬(trimLeadSlash r.urlPath = "" ∧ r.method = Method.GET) := by
    rintro ⟨-, hg⟩
    rw [hm] at hg
    cases hg
  simp only [serveHTTP, if_neg hne, hparse, hm, hdel]
  simp

theorem C7_delete_bucket_fails_witness :
    deleteBucket [(["data"], Node.dir), (["data", "b"], Node.dir),
        (["data", "b", "x"], Node.file [1])] "data" "b" = none ∧
    serveHTTP [(["data"], Node.dir), (["data", "b"], Node.dir),
        (["data", "b", "x"], Node.file [1])] "data"
        ⟨.DELETE, "/b", "", [], 0⟩ =
      (⟨500, .text "failed to delete bucket"⟩,
        [(["data"], Node.dir), (["data", "b"], Node.dir),
          (["data", "b", "x"], Node.file [1])]) := by
  have h := C7_delete_bucket_fails [(["data"], Node.dir),
    (["data", "b"], Node.dir), (["data", "b", "x"], Node.file [1])]
    "data" "b" (Or.inr (by decide))
  exact ⟨h.1, h.2 ⟨.DELETE, "/b", "", [], 0⟩ rfl (by decide)⟩

/-- C5: for every PUT `/{bucket}/{key}` request whose put succeeds, the
dispatcher answers 200 and the full request body is written to the mapped
file path, overwriting whatever was there; under the HTTP invariant that
the declared `Content-Length` equals the body length, the stored object's
size equals the declared size. (`PutObject` itself never reads its `size`
argument; the equality comes from the HTTP-layer invariant.) -/
theorem C5_put_request (m m' : Fs) (root : String) (r : Request)
    (b k : String)
    (hm : r.method = .PUT)
    (hparse : splitBucketKey (trimLeadSlash r.urlPath) = (b, some k))
    (hk : k ≠ "")
    (hput : putObject m root b k r.body r.contentLength = some m')
    (hcl : r.contentLength = (r.body.length : Int)) :
    serveHTTP m root r = (⟨200, .empty⟩, m') ∧
    lookupFs m' (joinRBK root b k) = some (.file r.body) ∧
    getObject m' root b k = some (.fileData r.body, r.body.length) ∧
    (r.body.length : Int) = r.contentLength := by
  refine ⟨?_, putObject_lookup hput, ?_, hcl.symm⟩
  · have hne : ¬(trimLeadSlash r.urlPath = "" ∧ r.method = Method.GET) := by
      rintro ⟨-, hg⟩
      rw [hm] at hg
      cases hg
    simp only [serveHTTP, if_neg hne, hparse, hm, hput]
    simp [hk, hput]
  · rw [getObject, putObject_lookup hput]

theorem C5_put_request_witness :
    serveHTTP [(["data"], Node.dir), (["data", "b"], Node.dir)] "data"
        ⟨.PUT, "/b/k.txt", "", [1, 2, 3], 3⟩ =
      (⟨200, .empty⟩,
        [(["data", "b", "k.txt"], Node.file [1, 2, 3]),
          (["data"], Node.dir), (["data", "b"], Node.dir)]) ∧
    lookupFs [(["data", "b", "k.txt"], Node.file [1, 2, 3]),
        (["data"], Node.dir), (["data", "b"], Node.dir)]
        (joinRBK "data" "b" "k.txt") = some (.file [1, 2, 3]) ∧
    getObject [(["data", "b", "k.txt"], Node.file [1, 2, 3]),
        (["data"], Node.dir), (["data", "b"], Node.dir)] "data" "b"
        "k.txt" = some (.fileData [1, 2, 3], 3) ∧
    (([1, 2, 3] : Bytes).length : Int) = (3 : Int) :=
  C5_put_request [(["data"], Node.dir), (["data", "b"], Node.dir)] _
    "data" ⟨.PUT, "/b/k.txt", "", [1, 2, 3], 3⟩ "b" "k.txt" rfl
    (by decide) (by decide) (by decide) (by decide)

/-- C8: the dispatcher maps failures to statuses per call site — any
non-GET/PUT/DELETE method yields 405; a failing `GetObject` on
GET `/{bucket}/{key}` yields 404; and failures of `ListBuckets`,
`CreateBucket`, `PutObject`, `ListObjects`, `DeleteBucket` and
`DeleteObject` all yield 500 — each with a plain-text body, leaving the
state unchanged. -/
theorem C8_status_per_call_site (m : Fs) (root : String) (r : Request)
    (b : String) (ko : Option String)
    (hparse : splitBucketKey (trimLeadSlash r.urlPath) = (b, ko)) :
    (r.method = .other →
      serveHTTP m root r = (⟨405, .text "Method not allowed"⟩, m)) ∧
    (r.method = .GET → trimLeadSlash r.urlPath = "" →
      listBuckets m root = none →
      serveHTTP m root r = (⟨500, .text "failed to read buckets"⟩, m)) ∧
    (r.method = .GET → ko.getD "" ≠ "" →
      getObject m root b (ko.getD "") = none →
      serveHTTP m root r = (⟨404, .text "failed to get object"⟩, m)) ∧
    (r.method = .GET → trimLeadSlash r.urlPath ≠ "" → ko.getD "" = "" →
      listObjects m root b r.prefixParam = none →
      serveHTTP m root r = (⟨500, .text "failed to list objects"⟩, m)) ∧
    (r.method = .PUT → ko.getD "" = "" → createBucket m root b = none →
      serveHTTP m root r = (⟨500, .text "failed to create bucket"⟩, m)) ∧
    (r.method = .PUT → ko.getD "" ≠ "" →
      putObject m root b (ko.getD "") r.body r.contentLength = none →
      serveHTTP m root r = (⟨500, .text "failed to put object"⟩, m)) ∧
    (r.method = .DELETE → ko.getD "" = "" → deleteBucket m root b = none →
      serveHTTP m root r = (⟨500, .text "failed to delete bucket"⟩, m)) ∧
    (r.method = .DELETE → ko.getD "" ≠ "" →
      deleteObject m root b (ko.getD "") = none →
      serveHTTP m root r = (⟨500, .text "failed to delete object"⟩, m)) := by
  refine ⟨?_, ?_, ?_, ?_, ?_, ?_, ?_, ?_⟩
  · intro hm
    simp only [serveHTTP, hparse, hm]
    simp
  · intro hm hpath hfail
    simp only [serveHTTP, hparse, hm, hfail]
    simp [hpath]
  · intro hm hkey hfail
    have hpath : trimLeadSlash r.urlPath ≠ "" := by
      intro hp
      rw [hp] at hparse
      have hko : ko = none := by
        have := congrArg Prod.snd hparse
        simpa using this.symm
      rw [hko] at hkey
      exact hkey rfl
    simp only [serveHTTP, hparse, hm, hfail]
    simp [hpath, hkey]
  · intro hm hpath hkey hfail
    simp only [serveHTTP, hparse, hm, hfail]
    simp [hpath, hkey]
  · intro hm hkey hfail
    simp only [serveHTTP, hparse, hm, hfail]
    simp [hkey]
  · intro hm hkey hfail
    simp only [serveHTTP, hparse, hm, hfail]
    simp [hkey]
  · intro hm hkey hfail
    simp only [serveHTTP, hparse, hm, hfail]
    simp [hkey]
  · intro hm hkey hfail
    simp only [serveHTTP, hparse, hm, hfail]
    simp [hkey]

theorem C8_status_per_call_site_witness :
    serveHTTP [(["data"], Node.dir)] "data" ⟨.other, "/b/k", "", [], 0⟩ =
      (⟨405, .text "Method not allowed"⟩, [(["data"], Node.dir)]) ∧
    serveHTTP [(["data"], Node.dir)] "data" ⟨.GET, "/b/k", "", [], 0⟩ =
      (⟨404, .text "failed to get object"⟩, [(["data"], Node.dir)]) ∧
    serveHTTP [(["data"], Node.dir)] "data" ⟨.DELETE, "/b", "", [], 0⟩ =
      (⟨500, .text "failed to delete bucket"⟩, [(["data"], Node.dir)]) := by
  have h1 := C8_status_per_call_site [(["data"], Node.dir)] "data"
    ⟨.other, "/b/k", "", [], 0⟩ "b" (some "k") (by decide)
  have h2 := C8_status_per_call_site [(["data"], Node.dir)] "data"
    ⟨.GET, "/b/k", "", [], 0⟩ "b" (some "k") (by decide)
  have h3 := C8_status_per_call_site [(["data"], Node.dir)] "data"
    ⟨.DELETE, "/b", "", [], 0⟩ "b" none (by decide)
  exact ⟨h1.1 rfl, h2.2.2.1 rfl (by decide) (by decide),
    h3.2.2.2.2.2.2.1 rfl rfl (by decide)⟩

theorem prefix_singleton_eq {q : Path} {s : String} (hq : q ≠ [])
    (hpq : q <+: [s]) : q = [s] := by
  cases q with
  | nil => exact absurd rfl hq
  | cons a as =>
    obtain ⟨t, ht⟩ := hpq
    rw [List.cons_append] at ht
    injection ht with h1 h2
    obtain ⟨h3, -⟩ := List.append_eq_nil.mp h2
    rw [h1, h3]

/-- C2: on a bucket that exists as a directory, `ListObjects(bucket, p)`
returns exactly those keys of objects existing in the bucket whose string
value starts with p: a key is in the result iff an object with that key
exists below the bucket path and p is empty or p is a string prefix of
the key. -/
theorem C2_list_objects_filter (m : Fs) (root bucket pfx : String)
    (hb : lookupFs m (joinRB root bucket) = some .dir) :
    ∃ objs, listObjects m root bucket pfx = some objs ∧
      ∀ k, k ∈ objs.map Prod.fst ↔
        ((∃ q c, (joinRB root bucket ++ q, Node.file c) ∈ m ∧ q ≠ [] ∧
            joinSegs q = k) ∧
          (pfx = "" ∨ pfx.data <+: k.data)) := by
  obtain ⟨h1, h2⟩ := listObjects_keys_char m root bucket pfx hb
  exact ⟨_, h1, h2⟩

theorem C2_list_objects_filter_witness :
    ∃ objs,
      listObjects [(["data"], Node.dir), (["data", "b"], Node.dir),
        (["data", "b", "x"], Node.dir),
        (["data", "b", "x", "y.txt"], Node.file [1, 2]),
        (["data", "b", "z.txt"], Node.file [3])] "data" "b" "x/" =
          some objs ∧
      ∀ k, k ∈ objs.map Prod.fst ↔
        ((∃ q c, (joinRB "data" "b" ++ q, Node.file c) ∈
            [(["data"], Node.dir), (["data", "b"], Node.dir),
              (["data", "b", "x"], Node.dir),
              (["data", "b", "x", "y.txt"], Node.file [1, 2]),
              (["data", "b", "z.txt"], Node.file [3])] ∧ q ≠ [] ∧
            joinSegs q = k) ∧
          ("x/" = "" ∨ "x/".data <+: k.data)) :=
  C2_list_objects_filter _ "data" "b" "x/" (by decide)

/-- C9: the dispatcher strips the leading slash and splits on the first
remaining slash into (bucket, key) with no validation — any key, including
one containing ".." segments, is passed through unchanged — and joining
such a key onto the bucket directory path can map the operation to a path
outside the bucket's subtree, as `GetObject(b, "../secret")` reading the
sibling file `data/secret` shows. -/
theorem C9_path_split_traversal (b k : String)
    (hb : ('/' : Char) ∉ b.data) :
    splitBucketKey (trimLeadSlash ("/" ++ b ++ "/" ++ k)) = (b, some k) ∧
    joinRBK "data" "b" "../secret" = ["data", "secret"] ∧
    ¬(joinRB "data" "b" <+: joinRBK "data" "b" "../secret") ∧
    getObject [(["data"], Node.dir), (["data", "b"], Node.dir),
        (["data", "secret"], Node.file [9, 9, 9])] "data" "b" "../secret" =
      some (.fileData [9, 9, 9], 3) := by
  refine ⟨?_, by decide, by decide, by decide⟩
  have h1 : "/" ++ b ++ "/" ++ k =
      String.mk ('/' :: (b.data ++ '/' :: k.data)) := by
    apply String.ext
    simp [String.data_append]
  rw [h1]
  have h2 : trimLeadSlash (String.mk ('/' :: (b.data ++ '/' :: k.data))) =
      String.mk (b.data ++ '/' :: k.data) := by
    simp [trimLeadSlash]
  rw [h2]
  have h3 : ∀ l kk : List Char, ('/' : Char) ∉ l →
      splitCharsAt (l ++ '/' :: kk) = (l, some kk) := by
    intro l kk hl
    induction l with
    | nil => simp [splitCharsAt]
    | cons c rest ih =>
      have hc : c ≠ '/' := fun hh => hl (hh ▸ List.mem_cons_self _ _)
      rw [List.cons_append, splitCharsAt, if_neg hc,
        ih fun hh => hl (List.mem_cons_of_mem _ hh)]
  rw [splitBucketKey]
  rw [show (String.mk (b.data ++ '/' :: k.data)).data =
    b.data ++ '/' :: k.data from rfl]
  rw [h3 _ _ hb]
  simp

theorem C9_path_split_traversal_witness :
    splitBucketKey (trimLeadSlash ("/" ++ "mybucket" ++ "/" ++ "../secret")) =
      ("mybucket", some "../secret") ∧
    joinRBK "data" "b" "../secret" = ["data", "secret"] ∧
    ¬(joinRB "data" "b" <+: joinRBK "data" "b" "../secret") ∧
    getObject [(["data"], Node.dir), (["data", "b"], Node.dir),
        (["data", "secret"], Node.file [9, 9, 9])] "data" "b" "../secret" =
      some (.fileData [9, 9, 9], 3) :=
  C9_path_split_traversal "mybucket" "../secret" (by decide)

/-- C10: a PUT or DELETE request for "/" parses as bucket = "" and runs
the bucket operation on the storage root itself: PUT answers 200 and
leaves the filesystem unchanged (`MkdirAll` on the existing root), while
DELETE runs `os.Remove` on the storage root — answering 204 and deleting
the root entry when the root is empty, and 500 (state unchanged)
otherwise. -/
theorem C10_empty_bucket_root_ops (m : Fs) (root qp : String)
    (body : Bytes) (cl : Int)
    (hpre : ∀ q : Path, q ≠ [] → q <+: rootPath root →
      lookupFs m q = some .dir) :
    serveHTTP m root ⟨.PUT, "/", qp, body, cl⟩ = (⟨200, .empty⟩, m) ∧
    (rootPath root ≠ [] → hasChild m (rootPath root) = false →
      serveHTTP m root ⟨.DELETE, "/", qp, body, cl⟩ =
        (⟨204, .empty⟩, eraseP m (rootPath root)) ∧
      lookupFs (eraseP m (rootPath root)) (rootPath root) = none) ∧
    (hasChild m (rootPath root) = true →
      serveHTTP m root ⟨.DELETE, "/", qp, body, cl⟩ =
        (⟨500, .text "failed to delete bucket"⟩, m)) := by
  have htrim : trimLeadSlash "/" = "" := rfl
  have hsplit : splitBucketKey "" = ("", none) := rfl
  have hcreate : createBucket m root "" = some m := by
    rw [createBucket, joinRB_empty_bucket, mkdirAll]
    exact mkdirAllFrom_noop _ _ _ fun q hq hpq => hpre q hq (by simpa using hpq)
  refine ⟨?_, ?_, ?_⟩
  · simp only [serveHTTP, htrim, hsplit, hcreate]
    simp
  · intro hrp hchild
    have hdel : deleteBucket m root "" = some (eraseP m (rootPath root)) := by
      rw [deleteBucket, joinRB_empty_bucket, removeFs, if_neg hrp,
        hpre _ hrp List.prefix_rfl, hchild]
      simp
    constructor
    · simp only [serveHTTP, htrim, hsplit, hdel]
      simp
    · exact lookupFs_eraseP_self _ _ hrp
  · intro hchild
    have hdel : deleteBucket m root "" = none := by
      rw [deleteBucket, joinRB_empty_bucket, removeFs]
      by_cases hrp : rootPath root = []
      · rw [if_pos hrp]
      · rw [if_neg hrp, hpre _ hrp List.prefix_rfl, hchild]
        simp
    simp only [serveHTTP, htrim, hsplit, hdel]
    simp

theorem C10_empty_bucket_root_ops_witness :
    serveHTTP [(["data"], Node.dir)] "data" ⟨.PUT, "/", "", [], 0⟩ =
      (⟨200, .empty⟩, [(["data"], Node.dir)]) ∧
    serveHTTP [(["data"], Node.dir)] "data" ⟨.DELETE, "/", "", [], 0⟩ =
      (⟨204, .empty⟩, eraseP [(["data"], Node.dir)] (rootPath "data")) ∧
    serveHTTP [(["data"], Node.dir), (["data", "b"], Node.dir)] "data"
        ⟨.DELETE, "/", "", [], 0⟩ =
      (⟨500, .text "failed to delete bucket"⟩,
        [(["data"], Node.dir), (["data", "b"], Node.dir)]) := by
  have h1 := C10_empty_bucket_root_ops [(["data"], Node.dir)] "data" ""
    [] 0 (fun q hq hpq => by
      have h := prefix_singleton_eq hq (show q <+: ["data"] from hpq)
      rw [h]
      decide)
  have h2 := C10_empty_bucket_root_ops
    [(["data"], Node.dir), (["data", "b"], Node.dir)] "data" "" [] 0
    (fun q hq hpq => by
      have h := prefix_singleton_eq hq (show q <+: ["data"] from hpq)
      rw [h]
      decide)
  exact ⟨h1.1, (h1.2.1 (by decide) (by decide)).1, h2.2.2 (by decide)⟩

/-- Invariant of a successful sequence of puts: the bucket directory is
preserved, and the file entries below the bucket path are exactly the old
ones plus one at the split path of each written key. -/
theorem putList_file_at (root b : String) (ks : List (String × Bytes)) :
    ∀ m m' : Fs, putList root b m ks = some m' →
      (∀ x ∈ ks, WfKey x.1) →
      lookupFs m (joinRB root b) = some .dir →
      (lookupFs m' (joinRB root b) = some .dir ∧
        ∀ q : Path, q ≠ [] →
          ((∃ c, (joinRB root b ++ q, Node.file c) ∈ m') ↔
            ((∃ c, (joinRB root b ++ q, Node.file c) ∈ m) ∨
              ∃ x ∈ ks, splitPath x.1 = q))) := by
  induction ks with
  | nil =>
    intro m m' h hwf hb
    rw [putList] at h
    cases h
    exact ⟨hb, fun q hq => by simp⟩
  | cons kd rest ih =>
    intro m m' h hwf hb
    obtain ⟨k, d⟩ := kd
    rw [putList] at h
    cases hput : putObject m root b k d ((d.length : Int)) with
    | none => rw [hput] at h; cases h
    | some m1 =>
      rw [hput] at h
      have hk : WfKey k := hwf (k, d) (List.mem_cons_self _ _)
      have hsk : joinRBK root b k = joinRB root b ++ splitPath k :=
        joinRBK_eq root b k hk
      have hskne : splitPath k ≠ [] := hk.1
      obtain ⟨md, hmk, hpne, hm1⟩ := putObject_eq hput
      have hbne : joinRB root b ≠ joinRBK root b k := by
        rw [hsk]
        intro hcontra
        have h0 : joinRB root b ++ splitPath k = joinRB root b ++ ([] : Path) := by
          simpa using hcontra.symm
        exact hskne (List.append_cancel_left h0)
      have hb1 : lookupFs m1 (joinRB root b) = some .dir := by
        rw [hm1, lookupFs_insert_ne _ _ _ _ hbne]
        exact mkdirAllFrom_lookup_dir _ _ _ _ _ hmk hb
      obtain ⟨hb2, hiff⟩ :=
        ih m1 m' h (fun x hx => hwf x (List.mem_cons_of_mem _ hx)) hb1
      refine ⟨hb2, fun q hq => ?_⟩
      rw [hiff q hq]
      have hfile1 : (∃ c, (joinRB root b ++ q, Node.file c) ∈ m1) ↔
          (q = splitPath k ∨
            ∃ c, (joinRB root b ++ q, Node.file c) ∈ m) := by
        rw [hm1]
        constructor
        · rintro ⟨c, hc⟩
          rw [mem_insertEntry] at hc
          rcases hc with heq | ⟨hmem, hne⟩
          · left
            have h4 : joinRB root b ++ q = joinRBK root b k :=
              congrArg Prod.fst heq
            rw [hsk] at h4
            exact List.append_cancel_left h4
          · exact Or.inr ⟨c, (mkdirAllFrom_file_mem _ _ _ _ _ _ hmk).mp hmem⟩
        · rintro (rfl | ⟨c, hc⟩)
          · refine ⟨d, mem_insertEntry.mpr (Or.inl ?_)⟩
            rw [hsk]
          · by_cases hqk : q = splitPath k
            · subst hqk
              exact ⟨d, mem_insertEntry.mpr (Or.inl (by rw [hsk]))⟩
            · refine ⟨c, mem_insertEntry.mpr (Or.inr
                ⟨(mkdirAllFrom_file_mem _ _ _ _ _ _ hmk).mpr hc, ?_⟩)⟩
              show joinRB root b ++ q ≠ joinRBK root b k
              rw [hsk]
              intro hcontra
              exact hqk (List.append_cancel_left hcontra)
      rw [hfile1]
      constructor
      · rintro ((rfl | hm0) | ⟨x, hx, hxq⟩)
        · exact Or.inr ⟨(k, d), List.mem_cons_self _ _, rfl⟩
        · exact Or.inl hm0
        · exact Or.inr ⟨x, List.mem_cons_of_mem _ hx, hxq⟩
      · rintro (hm0 | ⟨x, hx, hxq⟩)
        · exact Or.inl (Or.inr hm0)
        · rcases List.mem_cons.mp hx with rfl | htl
          · exact Or.inl (Or.inl hxq.symm)
          · exact Or.inr ⟨x, htl, hxq⟩

/-- C3: writing any list of well-formed keys K (arbitrarily deeply
nested) into a bucket that starts out as an empty directory and then
calling `ListObjects(bucket, "")` returns exactly the key set K — each
returned key being the object's bucket-relative path joined with forward
slashes, regardless of nesting depth. -/
theorem C3_listing_completeness (m0 m' : Fs) (root bucket : String)
    (ks : List (String × Bytes))
    (hb : lookupFs m0 (joinRB root bucket) = some .dir)
    (hempty : ∀ e ∈ m0, ¬(joinRB root bucket <+: e.1 ∧
      e.1 ≠ joinRB root bucket))
    (hwf : ∀ x ∈ ks, WfKey x.1)
    (hput : putList root bucket m0 ks = some m') :
    ∃ objs, listObjects m' root bucket "" = some objs ∧
      ∀ k, k ∈ objs.map Prod.fst ↔ k ∈ ks.map Prod.fst := by
  obtain ⟨hb', hiff⟩ := putList_file_at root bucket ks m0 m' hput hwf hb
  obtain ⟨h1, h2⟩ := listObjects_keys_char m' root bucket "" hb'
  refine ⟨_, h1, fun k => ?_⟩
  rw [h2 k]
  constructor
  · rintro ⟨⟨q, c, hmem, hq, hjoin⟩, -⟩
    rcases (hiff q hq).mp ⟨c, hmem⟩ with ⟨c0, hc0⟩ | ⟨x, hx, hxq⟩
    · exact absurd ⟨⟨q, rfl⟩, fun hh => hq (List.append_cancel_left
        (show joinRB root bucket ++ q = joinRB root bucket ++ [] by
          simpa using hh))⟩ (hempty _ hc0)
    · refine List.mem_map.mpr ⟨x, hx, ?_⟩
      rw [← hjoin, ← hxq, joinSegs_splitPath]
  · intro hk
    obtain ⟨x, hx, hxk⟩ := List.mem_map.mp hk
    refine ⟨⟨splitPath x.1, ?_⟩, Or.inl rfl⟩
    obtain ⟨c, hc⟩ := (hiff (splitPath x.1) (hwf x hx).1).mpr
      (Or.inr ⟨x, hx, rfl⟩)
    exact ⟨c, hc, (hwf x hx).1, by rw [joinSegs_splitPath, hxk]⟩

theorem C3_listing_completeness_witness :
    ∃ objs,
      listObjects [(["data", "b", "c.txt"], Node.file [2, 3]),
        (["data", "b", "a", "b.txt"], Node.file [1]),
        (["data", "b", "a"], Node.dir), (["data"], Node.dir),
        (["data", "b"], Node.dir)] "data" "b" "" = some objs ∧
      ∀ k, k ∈ objs.map Prod.fst ↔
        k ∈ ([("a/b.txt", ([1] : Bytes)), ("c.txt", [2, 3])].map Prod.fst) :=
  C3_listing_completeness [(["data"], Node.dir), (["data", "b"], Node.dir)]
    _ "data" "b" [("a/b.txt", [1]), ("c.txt", [2, 3])]
    (by decide) (by decide) (by decide) (by decide)

end GoFs
